import Mathlib

/-!
# Verification of `hxx` (a minimal `xxd` re-implementation)

A shallow embedding of the `hxx` hex dump / reverse hex dump core
(`src/hex.rs`) and of the pure part of its configuration parsing
(`src/config.rs`), together with proofs of the specification's claims.

Modelling conventions:
* A byte is a `Nat` (with the hypothesis `< 256` where the source type is `u8`).
* A Rust `String` / `&str` is a `List Nat` of Unicode scalar values; byte
  indices into the UTF-8 encoding are computed with `utf8Width` / `utf8Len`.
* Fallible operations return an explicit result inductive; a Rust panic
  (out-of-bounds or non-boundary string slice) is the distinguished
  outcome `panic`.
* Streams are fully materialised: the encoder maps an input byte list to
  the list of bytes written, the decoder maps an input text (scalar value
  list) to the bytes written or the first error.
-/

namespace Hxx

/-- Number of bytes of the UTF-8 encoding of the Unicode scalar value `c`. -/
def utf8Width (c : Nat) : Nat :=
  if c < 0x80 then 1 else if c < 0x800 then 2 else if c < 0x10000 then 3 else 4

/-- Byte length of the UTF-8 encoding of a string (`str::len` in the source). -/
def utf8Len (s : List Nat) : Nat :=
  (s.map utf8Width).sum

/-- Lowercase hexadecimal digit character for a value `v < 16`
(`0-9` then `a-f`), as produced by Rust's `{:x}` formatting. -/
def hexDigitChar (v : Nat) : Nat :=
  if v < 10 then 0x30 + v else 0x57 + v

/-- Hexadecimal digit string (lowercase, no leading zeros except for `0`
itself) of `n`, as produced by Rust's `{:x}` formatting. -/
def toHexDigits (n : Nat) : List Nat :=
  if n < 16 then [hexDigitChar n]
  else toHexDigits (n / 16) ++ [hexDigitChar (n % 16)]
  termination_by n
  decreasing_by exact Nat.div_lt_self (by omega) (by omega)

/-- Zero-pad a hexadecimal rendering on the left to a minimum width `w`,
as Rust's `{:0w$x}` does. -/
def hexPadLeft (w : Nat) (n : Nat) : List Nat :=
  List.replicate (w - (toHexDigits n).length) 0x30 ++ toHexDigits n

/-- The offset prefix of a dump line: `write!(line, "{:08x}: ", offset)`
renders the offset as at least 8 lowercase hex digits, zero padded. -/
def hexPad8 (n : Nat) : List Nat :=
  hexPadLeft 8 n

/-- Two-hex-digit lowercase rendering of a byte:
`write!(line, "{:02x}", *byte)`. -/
def byteHex (b : Nat) : List Nat :=
  hexPadLeft 2 b

/-- The hex-pair loop of `format_hex_dump_line`, starting at byte index `i`:
for each byte, a single `' '` is pushed first when `i != 0 && i % byte_groups == 0`,
followed by the byte's two-digit rendering. -/
def hexBodyFrom (byte_groups : Nat) (i : Nat) : List Nat → List Nat
  | [] => []
  | b :: rest =>
      (if i ≠ 0 ∧ i % byte_groups = 0 then [0x20] else []) ++
        byteHex b ++ hexBodyFrom byte_groups (i + 1) rest

/-- The hex-pair section of a dump line (the enumerate loop starting at 0). -/
def hexBody (byte_groups : Nat) (buffer : List Nat) : List Nat :=
  hexBodyFrom byte_groups 0 buffer

/-- ASCII-panel rendering of one byte: itself when printable
(`0x20..=0x7e`), else `'.'`. -/
def asciiPanelChar (b : Nat) : Nat :=
  if 0x20 ≤ b ∧ b ≤ 0x7e then b else 0x2e

/-- `format_hex_dump_line` from `src/hex.rs`: offset as `{:08x}: `, the
grouped hex pairs, right-padding for a short (final) chunk of
`(cols - bytes_read) * 2 + (cols - bytes_read) / byte_groups` spaces,
two literal spaces, then the ASCII panel. -/
def format_hex_dump_line (buffer : List Nat) (offset cols byte_groups : Nat) :
    List Nat :=
  hexPad8 offset ++ [0x3a, 0x20] ++
    hexBody byte_groups buffer ++
    (if buffer.length < cols then
      List.replicate ((cols - buffer.length) * 2 + (cols - buffer.length) / byte_groups) 0x20
     else []) ++
    [0x20, 0x20] ++
    buffer.map asciiPanelChar

/-- The read/format/write loop of `hex_dump`: each `read` into the
`cols`-sized buffer returns `min cols |input|` bytes; `0` bytes read is
EOF and terminates the loop; otherwise the formatted line plus the
`writeln!` newline is emitted and the offset advances by the bytes read. -/
def hexDumpGo (cols byte_groups : Nat) (offset : Nat) (input : List Nat) :
    List Nat :=
  if h : cols = 0 ∨ input = [] then []
  else
    format_hex_dump_line (input.take cols) offset cols byte_groups ++
      0x0a :: hexDumpGo cols byte_groups (offset + (input.take cols).length)
        (input.drop cols)
  termination_by input.length
  decreasing_by
    simp only [not_or] at h
    have : 0 < input.length := List.length_pos.mpr h.2
    simp only [List.length_drop]
    omega

/-- `hex_dump` from `src/hex.rs`, as the function from the input byte
stream to the bytes written to the output stream (offset starts at 0). -/
def hex_dump (cols byte_groups : Nat) (input : List Nat) : List Nat :=
  hexDumpGo cols byte_groups 0 input

/-- The chunking performed by the `hex_dump` read loop: successive
`cols`-byte slices of the input, the last possibly shorter. -/
def chunks (cols : Nat) (s : List Nat) : List (List Nat) :=
  if h : cols = 0 ∨ s = [] then []
  else s.take cols :: chunks cols (s.drop cols)
  termination_by s.length
  decreasing_by
    simp only [not_or] at h
    have : 0 < s.length := List.length_pos.mpr h.2
    simp only [List.length_drop]
    omega

/-- The list of emitted dump lines (newline included), one per chunk,
with the running offset threaded exactly as in the `hex_dump` loop. -/
def dumpLines (cols byte_groups offset : Nat) : List (List Nat) → List (List Nat)
  | [] => []
  | c :: rest =>
      (format_hex_dump_line c offset cols byte_groups ++ [0x0a]) ::
        dumpLines cols byte_groups (offset + c.length) rest

/-! ### Decoder (`reverse_hex_dump`) -/

/-- The errors returned by `format_reverse_hex_dump_line`, in the order the
source can produce them. -/
inductive LineError where
  /-- `"malformed line: missing ':'"` -/
  | missingColon
  /-- `"malformed line: missing double space separator"` -/
  | missingSep
  /-- `"malformed line: line too short"` -/
  | lineTooShort
  /-- `"malformed hex: odd number of hex digits"` -/
  | oddDigits
  /-- `"malformed line: invalid hex char"` -/
  | invalidHex
  deriving DecidableEq

/-- Outcome of the per-line decoder: the bytes pushed to `line`, an error
return, or a Rust panic (an out-of-bounds / non-char-boundary slice). -/
inductive LineOut where
  | ok (bytes : List Nat)
  | err (e : LineError)
  | panic
  deriving DecidableEq

/-- `buffer.find(':')`: byte index (in the UTF-8 encoding) of the first
`':'` scalar value, if any. Since `':'` is ASCII, a match of the one-byte
pattern always falls on a character boundary. -/
def findColonByteIdx : List Nat → Option Nat
  | [] => none
  | c :: rest =>
      if c = 0x3a then some 0
      else (findColonByteIdx rest).map (utf8Width c + ·)

/-- `&buffer[n..]` with `n` a byte index: `some` of the remaining scalar
values when `n` is a character boundary within the string, `none` (panic)
when `n` is out of bounds or splits a character. -/
def dropBytes : Nat → List Nat → Option (List Nat)
  | 0, s => some s
  | _ + 1, [] => none
  | n + 1, c :: rest =>
      if utf8Width c ≤ n + 1 then dropBytes (n + 1 - utf8Width c) rest else none

/-- `&buffer[..n]` with `n` a byte index (same boundary conditions as
`dropBytes`, returning the prefix). -/
def takeBytes : Nat → List Nat → Option (List Nat)
  | 0, _ => some []
  | _ + 1, [] => none
  | n + 1, c :: rest =>
      if utf8Width c ≤ n + 1 then (takeBytes (n + 1 - utf8Width c) rest).map (c :: ·)
      else none

/-- `s.find("  ")`: byte index of the first occurrence of two consecutive
spaces. In UTF-8 the byte `0x20` occurs only as the space character, so the
two-byte pattern `"  "` matches exactly at two consecutive space scalars. -/
def findTwoSpacesByteIdx : List Nat → Option Nat
  | a :: b :: rest =>
      if a = 0x20 ∧ b = 0x20 then some 0
      else (findTwoSpacesByteIdx (b :: rest)).map (utf8Width a + ·)
  | _ => none

/-- Rust's `char::is_whitespace`: the Unicode `White_Space` property. -/
def isRustWhitespace (c : Nat) : Bool :=
  (0x9 ≤ c ∧ c ≤ 0xd) ∨ c = 0x20 ∨ c = 0x85 ∨ c = 0xa0 ∨ c = 0x1680 ∨
    (0x2000 ≤ c ∧ c ≤ 0x200a) ∨ c = 0x2028 ∨ c = 0x2029 ∨ c = 0x202f ∨
    c = 0x205f ∨ c = 0x3000

/-- Rust's `char::to_digit(16)`. -/
def toDigit16 (c : Nat) : Option Nat :=
  if 0x30 ≤ c ∧ c ≤ 0x39 then some (c - 0x30)
  else if 0x61 ≤ c ∧ c ≤ 0x66 then some (c - 0x61 + 10)
  else if 0x41 ≤ c ∧ c ≤ 0x46 then some (c - 0x41 + 10)
  else none

/-- The octet loop of `format_reverse_hex_dump_line` over the
whitespace-filtered hex characters: take a high character (none left:
done), take a low character (none left: odd-digit error), convert high
then low via `to_digit(16)` (invalid-hex error), and push
`(high_nibble << 4) | low_nibble`. -/
def decodeHexPairs : List Nat → LineOut
  | [] => .ok []
  | [_] => .err .oddDigits
  | h :: l :: rest =>
      match toDigit16 h with
      | none => .err .invalidHex
      | some hn =>
        match toDigit16 l with
        | none => .err .invalidHex
        | some ln =>
          match decodeHexPairs rest with
          | .ok bs => .ok (((hn <<< 4) ||| ln) :: bs)
          | out => out

/-- `format_reverse_hex_dump_line` from `src/hex.rs`: find the first `':'`
(else `missingColon`); `start = colon_idx + 2`; slice `buffer[start..]`
(panic when out of bounds); find `"  "` in the slice (else `missingSep`);
`end = found + start`; error `lineTooShort` when `end > buffer.len()`;
slice the hex section, drop whitespace, and decode the hex pairs. -/
def format_reverse_hex_dump_line (buffer : List Nat) : LineOut :=
  match findColonByteIdx buffer with
  | none => .err .missingColon
  | some colon_idx =>
    match dropBytes (colon_idx + 2) buffer with
    | none => .panic
    | some tail =>
      match findTwoSpacesByteIdx tail with
      | none => .err .missingSep
      | some found =>
        if found + (colon_idx + 2) > utf8Len buffer then .err .lineTooShort
        else
          match takeBytes found tail with
          | none => .panic
          | some hex =>
            decodeHexPairs (hex.filter (fun c => ! isRustWhitespace c))

/-- Split a text stream into the successive results of `read_line`: each
line keeps its terminating `'\n'`; a final line without one is returned as
is; at EOF `read_line` returns 0 bytes and the loop stops. -/
def splitLines : List Nat → List (List Nat)
  | [] => []
  | c :: rest =>
      if c = 0x0a then [0x0a] :: splitLines rest
      else
        match splitLines rest with
        | [] => [[c]]
        | l :: ls => (c :: l) :: ls

/-- Outcome of a full decoder run: the bytes written to the output stream,
or the first per-line failure. -/
inductive DumpOut where
  | ok (bytes : List Nat)
  | err (e : LineError)
  | panic
  deriving DecidableEq

/-- The per-line loop of `reverse_hex_dump`: decode each line in order,
writing each line's bytes, aborting at the first error. -/
def revLines : List (List Nat) → DumpOut
  | [] => .ok []
  | l :: rest =>
      match format_reverse_hex_dump_line l with
      | .ok bs =>
        match revLines rest with
        | .ok bs' => .ok (bs ++ bs')
        | out => out
      | .err e => .err e
      | .panic => .panic

/-- `reverse_hex_dump` from `src/hex.rs`, as the function from the input
text stream (list of Unicode scalar values) to the decoder outcome. -/
def reverse_hex_dump (input : List Nat) : DumpOut :=
  revLines (splitLines input)

/-- Unicode scalar values of a string literal (used for concrete inputs). -/
def strBytes (s : String) : List Nat :=
  s.data.map Char.toNat

/-! ### Configuration parsing (`src/config.rs`) -/

/-- Rust's `str::parse::<usize>()`: an optional leading `'+'`, then at
least one ASCII decimal digit (overflow, which cannot occur for the inputs
considered here, is not modelled). -/
def parse_usize (s : List Nat) : Option Nat :=
  match s with
  | 0x2b :: rest =>
      if rest ≠ [] ∧ rest.all (fun c => 0x30 ≤ c ∧ c ≤ 0x39) then
        some (rest.foldl (fun acc c => acc * 10 + (c - 0x30)) 0)
      else none
  | _ =>
      if s ≠ [] ∧ s.all (fun c => 0x30 ≤ c ∧ c ≤ 0x39) then
        some (s.foldl (fun acc c => acc * 10 + (c - 0x30)) 0)
      else none

/-- `Config::parse_value` from `src/config.rs`: a missing argument is
`"missing value for flag"`; a parsed value is accepted when
`(0..=256).contains(&value)`, else `"invalid value for flag"`. -/
def parse_value (value : Option (List Nat)) : Except String Nat :=
  match value with
  | none => .error "missing value for flag"
  | some s =>
    match parse_usize s with
    | some v => if 0 ≤ v ∧ v ≤ 256 then .ok v else .error "invalid value for flag"
    | none => .error "invalid value for flag"

/-- Result of resolving the option flags in `Config::build`: the resolved
`cols`, `byte_groups` and `reverse` fields (the subsequent file/stdin
stream selection is I/O and outside the pure model), an error return, or a
process exit from `-h` / `-v`. -/
inductive BuildResult where
  | ok (cols byte_groups : Nat) (rev : Bool)
  | error (msg : String)
  | exits
  deriving DecidableEq

/-- Whether an argument starts with `'-'` (`arg.starts_with("-")`). -/
def startsWithDash : List Nat → Bool
  | 0x2d :: _ => true
  | _ => false

/-- The flag loop of `Config::build`, starting from the current `cols`,
`byte_groups` and `reverse` values (initially `16`, `2`, `false`): while
the next argument starts with `'-'`, dispatch on the flag registry
(`-c` / `-g` consume and parse the following value, `-r` sets reverse,
`-h` / `-v` print and exit the process, anything else is
`"unknown flag provided"`); the first non-flag argument stops the loop. -/
def buildOptsGo (cols byte_groups : Nat) (rev : Bool) :
    List (List Nat) → BuildResult
  | [] => .ok cols byte_groups rev
  | arg :: rest =>
      if startsWithDash arg then
        if arg = strBytes "-c" then
          match rest with
          | [] =>
            match parse_value none with
            | .ok v => .ok v byte_groups rev
            | .error e => .error e
          | v :: rest' =>
            match parse_value (some v) with
            | .ok v' => buildOptsGo v' byte_groups rev rest'
            | .error e => .error e
        else if arg = strBytes "-g" then
          match rest with
          | [] =>
            match parse_value none with
            | .ok v => .ok cols v rev
            | .error e => .error e
          | v :: rest' =>
            match parse_value (some v) with
            | .ok v' => buildOptsGo cols v' rev rest'
            | .error e => .error e
        else if arg = strBytes "-r" then
          buildOptsGo cols byte_groups true rest
        else if arg = strBytes "-h" ∨ arg = strBytes "-v" then .exits
        else .error "unknown flag provided"
      else .ok cols byte_groups rev

/-- The pure option-resolution part of `Config::build`: defaults
`cols = 16`, `byte_groups = 2`, `reverse = false`, then the flag loop. -/
def buildOpts (args : List (List Nat)) : BuildResult :=
  buildOptsGo 16 2 false args

/-! ## Generic lemmas about the byte-index primitives -/

theorem utf8Width_pos (c : Nat) : 1 ≤ utf8Width c := by
  unfold utf8Width
  split <;> [omega; split <;> [omega; split <;> omega]]

theorem utf8Len_nil : utf8Len [] = 0 := rfl

theorem utf8Len_cons (c : Nat) (s : List Nat) :
    utf8Len (c :: s) = utf8Width c + utf8Len s := by
  simp [utf8Len]

theorem utf8Len_append (xs ys : List Nat) :
    utf8Len (xs ++ ys) = utf8Len xs + utf8Len ys := by
  simp [utf8Len]

/-- Slicing `xs ++ ys` at the byte length of `xs` lands on the boundary
and yields `ys`. -/
theorem dropBytes_utf8Len (xs ys : List Nat) :
    dropBytes (utf8Len xs) (xs ++ ys) = some ys := by
  induction xs with
  | nil => simp [utf8Len, dropBytes]
  | cons c rest ih =>
      have hw := utf8Width_pos c
      rw [utf8Len_cons, List.cons_append]
      have h1 : utf8Width c + utf8Len rest = (utf8Width c + utf8Len rest - 1) + 1 := by omega
      rw [h1, dropBytes]
      have h2 : utf8Width c ≤ utf8Width c + utf8Len rest - 1 + 1 := by omega
      rw [if_pos h2]
      have h3 : utf8Width c + utf8Len rest - 1 + 1 - utf8Width c = utf8Len rest := by omega
      rw [h3, ih]

/-- Slicing `xs ++ ys` up to the byte length of `xs` yields `xs`. -/
theorem takeBytes_utf8Len (xs ys : List Nat) :
    takeBytes (utf8Len xs) (xs ++ ys) = some xs := by
  induction xs with
  | nil => simp [utf8Len, takeBytes]
  | cons c rest ih =>
      have hw := utf8Width_pos c
      rw [utf8Len_cons, List.cons_append]
      have h1 : utf8Width c + utf8Len rest = (utf8Width c + utf8Len rest - 1) + 1 := by omega
      rw [h1, takeBytes]
      have h2 : utf8Width c ≤ utf8Width c + utf8Len rest - 1 + 1 := by omega
      rw [if_pos h2]
      have h3 : utf8Width c + utf8Len rest - 1 + 1 - utf8Width c = utf8Len rest := by omega
      rw [h3, ih]
      rfl

/-- A successful `dropBytes n` consumes exactly `n` bytes. -/
theorem dropBytes_some_len :
    ∀ (s : List Nat) (n : Nat) (t : List Nat),
      dropBytes n s = some t → utf8Len s = n + utf8Len t := by
  intro s
  induction s with
  | nil =>
      intro n t h
      match n with
      | 0 => simp [dropBytes] at h; simp [h]
      | _ + 1 => simp [dropBytes] at h
  | cons c rest ih =>
      intro n t h
      match n with
      | 0 =>
          simp [dropBytes] at h
          simp [h]
      | m + 1 =>
          rw [dropBytes] at h
          by_cases hw : utf8Width c ≤ m + 1
          · rw [if_pos hw] at h
            have := ih (m + 1 - utf8Width c) t h
            rw [utf8Len_cons]
            omega
          · rw [if_neg hw] at h
            exact absurd h (by simp)

/-- A successful `"  "` search exhibits the two consecutive spaces at the
returned byte index. -/
theorem findTwoSpaces_some :
    ∀ (s : List Nat) (r : Nat), findTwoSpacesByteIdx s = some r →
      ∃ pre rest, s = pre ++ 0x20 :: 0x20 :: rest ∧ utf8Len pre = r := by
  intro s
  induction s with
  | nil => intro r h; simp [findTwoSpacesByteIdx] at h
  | cons a s' ih =>
      intro r h
      match s', h with
      | [], h => simp [findTwoSpacesByteIdx] at h
      | b :: rest, h =>
          rw [findTwoSpacesByteIdx] at h
          by_cases hsp : a = 0x20 ∧ b = 0x20
          · rw [if_pos hsp] at h
            simp at h
            exact ⟨[], rest, by simp [hsp.1, hsp.2], by simp [utf8Len, h]⟩
          · rw [if_neg hsp] at h
            match hfind : findTwoSpacesByteIdx (b :: rest) with
            | none => rw [hfind] at h; simp at h
            | some r' =>
                rw [hfind] at h
                simp at h
                obtain ⟨pre, rest', heq, hlen⟩ := ih r' hfind
                exact ⟨a :: pre, rest', by simp [heq], by
                  rw [utf8Len_cons, hlen, h]⟩

/-- No pair of adjacent spaces anywhere in the list. -/
def sepFree : List Nat → Bool
  | a :: b :: rest => if a = 0x20 ∧ b = 0x20 then false else sepFree (b :: rest)
  | _ => true

theorem sepFree_cons_of_ne {d : Nat} (hd : d ≠ 0x20) (ys : List Nat) :
    sepFree (d :: ys) = sepFree ys := by
  match ys with
  | [] => rfl
  | b :: rest =>
      rw [sepFree, if_neg (by intro hc; exact hd hc.1)]

theorem sepFree_append_of_ne {ds : List Nat} (hds : ∀ d ∈ ds, d ≠ 0x20)
    (ys : List Nat) : sepFree (ds ++ ys) = sepFree ys := by
  induction ds with
  | nil => rfl
  | cons d ds' ih =>
      rw [List.cons_append, sepFree_cons_of_ne (hds d (by simp))]
      exact ih (fun x hx => hds x (by simp [hx]))

/-- If `xs` followed by one space still has no adjacent space pair, then
the first `"  "` in `xs ++ "  " ++ r` is exactly at the end of `xs`. -/
theorem findTwoSpaces_boundary :
    ∀ (xs : List Nat), sepFree (xs ++ [0x20]) = true →
      ∀ (r : List Nat),
        findTwoSpacesByteIdx (xs ++ 0x20 :: 0x20 :: r) = some (utf8Len xs) := by
  intro xs
  induction xs with
  | nil =>
      intro _ r
      rw [List.nil_append, findTwoSpacesByteIdx, if_pos ⟨rfl, rfl⟩, utf8Len_nil]
  | cons a xs' ih =>
      intro hsep r
      match xs' with
      | [] =>
          rw [List.cons_append, List.nil_append] at hsep ⊢
          rw [sepFree] at hsep
          have ha : ¬ (a = 0x20 ∧ (0x20 : Nat) = 0x20) := by
            intro hc
            rw [if_pos hc] at hsep
            exact Bool.false_ne_true hsep
          rw [findTwoSpacesByteIdx, if_neg (by intro hc; exact ha ⟨hc.1, rfl⟩)]
          rw [findTwoSpacesByteIdx, if_pos ⟨rfl, rfl⟩]
          simp [utf8Len_cons, utf8Len_nil]
      | x :: xs'' =>
          simp only [List.cons_append] at hsep ⊢
          rw [sepFree] at hsep
          have ha : ¬ (a = 0x20 ∧ x = 0x20) := by
            intro hc
            rw [if_pos hc] at hsep
            exact Bool.false_ne_true hsep
          rw [if_neg ha] at hsep
          rw [findTwoSpacesByteIdx, if_neg ha]
          have hsep' : sepFree ((x :: xs'') ++ [0x20]) = true := by
            simpa using hsep
          have hih := ih hsep' r
          simp only [List.cons_append] at hih
          rw [hih]
          simp [utf8Len_cons]

/-- The first `':'` in `xs ++ ':' :: ys` with a colon-free `xs` is at
byte index `utf8Len xs`. -/
theorem findColon_boundary :
    ∀ (xs : List Nat), (∀ x ∈ xs, x ≠ 0x3a) →
      ∀ (ys : List Nat),
        findColonByteIdx (xs ++ 0x3a :: ys) = some (utf8Len xs) := by
  intro xs
  induction xs with
  | nil => intro _ ys; rw [List.nil_append, findColonByteIdx, if_pos rfl, utf8Len_nil]
  | cons a xs' ih =>
      intro hxs ys
      rw [List.cons_append, findColonByteIdx, if_neg (hxs a (by simp)),
        ih (fun x hx => hxs x (by simp [hx])) ys]
      simp [utf8Len_cons]

/-! ## Lemmas about the hexadecimal renderings -/

/-- A lowercase hexadecimal digit character: `'0'..'9'` or `'a'..'f'`. -/
def isHexDigitCh (d : Nat) : Prop :=
  (0x30 ≤ d ∧ d ≤ 0x39) ∨ (0x61 ≤ d ∧ d ≤ 0x66)

instance (d : Nat) : Decidable (isHexDigitCh d) := by
  unfold isHexDigitCh
  infer_instance

theorem hexDigitChar_isHex {v : Nat} (hv : v < 16) :
    isHexDigitCh (hexDigitChar v) := by
  unfold hexDigitChar isHexDigitCh
  split <;> omega

theorem toHexDigits_isHex :
    ∀ (n : Nat), ∀ d ∈ toHexDigits n, isHexDigitCh d := by
  intro n
  induction n using Nat.strong_induction_on with
  | _ n ih =>
      intro d hd
      rw [toHexDigits] at hd
      by_cases h : n < 16
      · rw [if_pos h] at hd
        simp at hd
        exact hd ▸ hexDigitChar_isHex h
      · rw [if_neg h] at hd
        rcases List.mem_append.mp hd with h1 | h2
        · exact ih (n / 16) (Nat.div_lt_self (by omega) (by omega)) d h1
        · simp at h2
          exact h2 ▸ hexDigitChar_isHex (Nat.mod_lt n (by omega))

theorem hexPadLeft_isHex {w n : Nat} :
    ∀ d ∈ hexPadLeft w n, isHexDigitCh d := by
  intro d hd
  rcases List.mem_append.mp hd with h1 | h2
  · rw [List.eq_of_mem_replicate h1]
    exact Or.inl (by omega)
  · exact toHexDigits_isHex n d h2

theorem toHexDigits_ne_nil (n : Nat) : toHexDigits n ≠ [] := by
  rw [toHexDigits]
  split <;> simp

theorem byteHex_ne_nil (b : Nat) : byteHex b ≠ [] := by
  unfold byteHex hexPadLeft
  intro h
  rcases List.append_eq_nil.mp h with ⟨_, h2⟩
  exact toHexDigits_ne_nil b h2

theorem isHex_ne_space {d : Nat} (h : isHexDigitCh d) : d ≠ 0x20 := by
  rcases h with h | h <;> omega

theorem isHex_ne_colon {d : Nat} (h : isHexDigitCh d) : d ≠ 0x3a := by
  rcases h with h | h <;> omega

theorem isHex_not_ws {d : Nat} (h : isHexDigitCh d) :
    isRustWhitespace d = false := by
  rcases h with h | h <;> (simp [isRustWhitespace]; omega)

/-- For an actual byte (`b < 256`), the `{:02x}` rendering is exactly the
two digit characters of the high and low nibble. -/
theorem byteHex_eq {b : Nat} (hb : b < 256) :
    byteHex b = [hexDigitChar (b / 16), hexDigitChar (b % 16)] := by
  unfold byteHex hexPadLeft
  by_cases h : b < 16
  · rw [toHexDigits, if_pos h]
    have hdiv : b / 16 = 0 := Nat.div_eq_of_lt h
    have hmod : b % 16 = b := Nat.mod_eq_of_lt h
    simp [hdiv, hmod, List.replicate]
    rfl
  · rw [toHexDigits, if_neg h]
    have h16 : b / 16 < 16 := by omega
    rw [toHexDigits, if_pos h16]
    simp [List.replicate]

theorem toDigit16_hexDigitChar {v : Nat} (hv : v < 16) :
    toDigit16 (hexDigitChar v) = some v := by
  unfold toDigit16 hexDigitChar
  by_cases h : v < 10
  · rw [if_pos h, if_pos (by omega)]
    simp
  · rw [if_neg h, if_neg (by omega), if_pos (by omega)]
    simp
    omega

theorem shiftOr_fin :
    ∀ (h l : Fin 16), ((h.val <<< 4) ||| l.val) = 16 * h.val + l.val := by
  decide

theorem shiftOr_byte {b : Nat} (hb : b < 256) :
    ((b / 16) <<< 4) ||| (b % 16) = b := by
  have h1 : b / 16 < 16 := by omega
  have h2 : b % 16 < 16 := Nat.mod_lt b (by omega)
  have := shiftOr_fin ⟨b / 16, h1⟩ ⟨b % 16, h2⟩
  simp at this
  omega

/-! ## Lemmas about the hex-pair section -/

theorem hexBodyFrom_sepFree (byte_groups : Nat) :
    ∀ (c : List Nat) (i : Nat),
      sepFree (hexBodyFrom byte_groups i c ++ [0x20]) = true := by
  intro c
  induction c with
  | nil => intro i; rfl
  | cons b rest ih =>
      intro i
      rw [hexBodyFrom]
      have hbh : ∀ d ∈ byteHex b, d ≠ 0x20 :=
        fun d hd => isHex_ne_space (hexPadLeft_isHex d hd)
      have hmain :
          sepFree (byteHex b ++ (hexBodyFrom byte_groups (i + 1) rest ++ [0x20])) = true := by
        rw [sepFree_append_of_ne hbh]
        exact ih (i + 1)
      by_cases hsep : i ≠ 0 ∧ i % byte_groups = 0
      · rw [if_pos hsep]
        obtain ⟨hd, tl, hbt⟩ := List.exists_cons_of_ne_nil (byteHex_ne_nil b)
        have hhd : hd ≠ 0x20 := hbh hd (by rw [hbt]; simp)
        simp only [List.append_assoc, List.cons_append, List.nil_append]
        rw [hbt, List.cons_append, sepFree,
          if_neg (by intro hc; exact hhd hc.2)]
        rw [hbt] at hmain
        simpa using hmain
      · rw [if_neg hsep]
        simpa using hmain

theorem hexBodyFrom_filter (byte_groups : Nat) :
    ∀ (c : List Nat) (i : Nat),
      (hexBodyFrom byte_groups i c).filter (fun x => ! isRustWhitespace x) =
        (c.map byteHex).flatten := by
  intro c
  induction c with
  | nil => intro i; rfl
  | cons b rest ih =>
      intro i
      rw [hexBodyFrom]
      have hbh : (byteHex b).filter (fun x => ! isRustWhitespace x) = byteHex b :=
        List.filter_eq_self.mpr
          (fun d hd => by simp [isHex_not_ws (hexPadLeft_isHex d hd)])
      by_cases hsep : i ≠ 0 ∧ i % byte_groups = 0
      · rw [if_pos hsep]
        simp only [List.append_assoc, List.cons_append, List.nil_append,
          List.filter_cons, List.filter_append]
        simp only [show isRustWhitespace 0x20 = true from rfl]
        simp only [Bool.not_true, if_neg (by simp : ¬ (false = true))]
        rw [hbh, ih (i + 1)]
        simp
      · rw [if_neg hsep]
        simp only [List.nil_append, List.filter_append]
        rw [hbh, ih (i + 1)]
        simp

theorem decodeHexPairs_join :
    ∀ (c : List Nat), (∀ b ∈ c, b < 256) →
      decodeHexPairs ((c.map byteHex).flatten) = .ok c := by
  intro c
  induction c with
  | nil => intro _; rfl
  | cons b rest ih =>
      intro hc
      have hb : b < 256 := hc b (by simp)
      have hrest := ih (fun x hx => hc x (by simp [hx]))
      simp only [List.map_cons, List.flatten_cons, byteHex_eq hb]
      rw [List.cons_append, List.cons_append, List.nil_append]
      have hjoin : (rest.map byteHex).flatten = [] ∨
          ∃ hd tl, (rest.map byteHex).flatten = hd :: tl := by
        match (rest.map byteHex).flatten with
        | [] => exact Or.inl rfl
        | hd :: tl => exact Or.inr ⟨hd, tl, rfl⟩
      rw [decodeHexPairs]
      rw [toDigit16_hexDigitChar (by omega : b / 16 < 16),
        toDigit16_hexDigitChar (Nat.mod_lt b (by omega))]
      simp only [hrest]
      rw [shiftOr_byte hb]

/-! ## Structure of a formatted dump line -/

theorem utf8Width_ascii {c : Nat} (h : c < 0x80) : utf8Width c = 1 := by
  rw [utf8Width, if_pos h]

theorem hexBodyFrom_chars (byte_groups : Nat) :
    ∀ (c : List Nat) (i : Nat), ∀ d ∈ hexBodyFrom byte_groups i c,
      d = 0x20 ∨ isHexDigitCh d := by
  intro c
  induction c with
  | nil => intro i d hd; simp [hexBodyFrom] at hd
  | cons b rest ih =>
      intro i d hd
      rw [hexBodyFrom] at hd
      rcases List.mem_append.mp hd with h1 | h2
      · rcases List.mem_append.mp h1 with h3 | h4
        · left
          split at h3 <;> simp_all
        · exact Or.inr (hexPadLeft_isHex d h4)
      · exact ih (i + 1) d h2

/-- Every character of a formatted dump line is at least `' '` (`0x20`);
in particular no line contains a newline. -/
theorem formatLine_chars {c : List Nat} {offset cols byte_groups : Nat} :
    ∀ d ∈ format_hex_dump_line c offset cols byte_groups, 0x20 ≤ d := by
  intro d hd
  unfold format_hex_dump_line at hd
  simp only [List.append_assoc, List.mem_append] at hd
  rcases hd with h | h | h | h | h | h
  · rcases hexPadLeft_isHex d h with h' | h' <;> omega
  · rcases List.mem_cons.mp h with h' | h'
    · omega
    · simp at h'
      omega
  · rcases hexBodyFrom_chars byte_groups c 0 d h with h' | h'
    · omega
    · rcases h' with h' | h' <;> omega
  · split at h
    · have := List.eq_of_mem_replicate h
      omega
    · simp at h
  · rcases List.mem_cons.mp h with h' | h'
    · omega
    · simp at h'
      omega
  · simp only [List.mem_map] at h
    obtain ⟨b, _, hb⟩ := h
    rw [← hb]
    unfold asciiPanelChar
    split <;> omega

theorem formatLine_no_newline {c : List Nat} {offset cols byte_groups : Nat} :
    0x0a ∉ format_hex_dump_line c offset cols byte_groups := by
  intro h
  have := formatLine_chars 0x0a h
  omega

theorem replicate_append_two (p : Nat) (x : Nat) (r : List Nat) :
    List.replicate p x ++ x :: x :: r = x :: x :: (List.replicate p x ++ r) := by
  induction p with
  | zero => rfl
  | succ p ih => simp only [List.replicate_succ, List.cons_append, ih]

/-- A formatted dump line (with its trailing newline) splits after the
`": "` into the hex section followed by `"  "` and the rest. -/
theorem formatLine_decomp (c : List Nat) (offset cols byte_groups : Nat) :
    ∃ R, format_hex_dump_line c offset cols byte_groups ++ [0x0a] =
      (hexPad8 offset ++ [0x3a, 0x20]) ++
        (hexBody byte_groups c ++ 0x20 :: 0x20 :: R) := by
  unfold format_hex_dump_line
  by_cases h : c.length < cols
  · refine ⟨List.replicate ((cols - c.length) * 2 + (cols - c.length) / byte_groups) 0x20 ++
      (c.map asciiPanelChar ++ [0x0a]), ?_⟩
    rw [if_pos h]
    simp only [List.append_assoc, List.cons_append, List.nil_append]
    rw [← replicate_append_two]
  · refine ⟨c.map asciiPanelChar ++ [0x0a], ?_⟩
    rw [if_neg h]
    simp [List.append_assoc]

/-- Decoding a line produced by the encoder recovers exactly the chunk the
line was formatted from. -/
theorem decode_format_line (c : List Nat) (offset cols byte_groups : Nat)
    (hc : ∀ b ∈ c, b < 256) :
    format_reverse_hex_dump_line
      (format_hex_dump_line c offset cols byte_groups ++ [0x0a]) = .ok c := by
  obtain ⟨R, hR⟩ := formatLine_decomp c offset cols byte_groups
  rw [hR]
  have hcolonfree : ∀ x ∈ hexPad8 offset, x ≠ 0x3a :=
    fun x hx => isHex_ne_colon (hexPadLeft_isHex x hx)
  have hfind : findColonByteIdx
      ((hexPad8 offset ++ [0x3a, 0x20]) ++
        (hexBody byte_groups c ++ 0x20 :: 0x20 :: R)) =
      some (utf8Len (hexPad8 offset)) := by
    have := findColon_boundary (hexPad8 offset) hcolonfree
      (0x20 :: (hexBody byte_groups c ++ 0x20 :: 0x20 :: R))
    simpa [List.append_assoc] using this
  have hprefix : utf8Len (hexPad8 offset ++ [0x3a, 0x20]) =
      utf8Len (hexPad8 offset) + 2 := by
    rw [utf8Len_append]
    simp [utf8Len, utf8Width_ascii (by norm_num : (0x3a : Nat) < 0x80),
      utf8Width_ascii (by norm_num : (0x20 : Nat) < 0x80)]
  have hdrop : dropBytes (utf8Len (hexPad8 offset) + 2)
      ((hexPad8 offset ++ [0x3a, 0x20]) ++
        (hexBody byte_groups c ++ 0x20 :: 0x20 :: R)) =
      some (hexBody byte_groups c ++ 0x20 :: 0x20 :: R) := by
    rw [← hprefix]
    exact dropBytes_utf8Len _ _
  have hsep : findTwoSpacesByteIdx (hexBody byte_groups c ++ 0x20 :: 0x20 :: R) =
      some (utf8Len (hexBody byte_groups c)) :=
    findTwoSpaces_boundary _ (hexBodyFrom_sepFree byte_groups c 0) R
  have htotal : utf8Len ((hexPad8 offset ++ [0x3a, 0x20]) ++
      (hexBody byte_groups c ++ 0x20 :: 0x20 :: R)) =
      utf8Len (hexPad8 offset) + 2 + (utf8Len (hexBody byte_groups c) + 2 + utf8Len R) := by
    rw [utf8Len_append, hprefix, utf8Len_append, utf8Len_cons, utf8Len_cons,
      utf8Width_ascii (by norm_num : (0x20 : Nat) < 0x80)]
    omega
  have hshort : ¬ (utf8Len (hexBody byte_groups c) + (utf8Len (hexPad8 offset) + 2) >
      utf8Len ((hexPad8 offset ++ [0x3a, 0x20]) ++
        (hexBody byte_groups c ++ 0x20 :: 0x20 :: R))) := by
    rw [htotal]
    omega
  have htake : takeBytes (utf8Len (hexBody byte_groups c))
      (hexBody byte_groups c ++ 0x20 :: 0x20 :: R) = some (hexBody byte_groups c) :=
    takeBytes_utf8Len _ _
  simp only [format_reverse_hex_dump_line, hfind, hdrop, hsep, htake, if_neg hshort]
  rw [show hexBody byte_groups c = hexBodyFrom byte_groups 0 c from rfl]
  rw [hexBodyFrom_filter byte_groups c 0]
  exact decodeHexPairs_join c hc

/-! ## Stream-level structure of the encoder output -/

theorem splitLines_append {L : List Nat} (hL : 0x0a ∉ L) (rest : List Nat) :
    splitLines (L ++ 0x0a :: rest) = (L ++ [0x0a]) :: splitLines rest := by
  induction L with
  | nil =>
      rw [List.nil_append, splitLines, if_pos rfl, List.nil_append]
  | cons c L' ih =>
      have hc : c ≠ 0x0a := fun h => hL (by simp [h])
      have hL' : 0x0a ∉ L' := fun h => hL (by simp [h])
      rw [List.cons_append, splitLines, if_neg hc, ih hL']
      simp

/-- The encoder output splits back into exactly the formatted lines of
the successive chunks, offsets threaded through. -/
theorem splitLines_hexDumpGo_bounded (cols byte_groups : Nat) (hcols : 1 ≤ cols) :
    ∀ (n : Nat) (S : List Nat), S.length ≤ n → ∀ (offset : Nat),
      splitLines (hexDumpGo cols byte_groups offset S) =
        dumpLines cols byte_groups offset (chunks cols S) := by
  intro n
  induction n with
  | zero =>
      intro S hS offset
      have hnil : S = [] := List.eq_nil_of_length_eq_zero (by omega)
      subst hnil
      rw [hexDumpGo, dif_pos (Or.inr rfl), chunks, dif_pos (Or.inr rfl)]
      rfl
  | succ n ih =>
      intro S hS offset
      by_cases hnil : S = []
      · subst hnil
        rw [hexDumpGo, dif_pos (Or.inr rfl), chunks, dif_pos (Or.inr rfl)]
        rfl
      · have hcond : ¬ (cols = 0 ∨ S = []) := by
          push_neg
          exact ⟨by omega, hnil⟩
        rw [hexDumpGo, dif_neg hcond, chunks, dif_neg hcond]
        rw [splitLines_append formatLine_no_newline]
        rw [dumpLines]
        have hlen : (S.drop cols).length ≤ n := by
          have h1 : 0 < S.length := List.length_pos.mpr hnil
          simp only [List.length_drop]
          omega
        rw [ih (S.drop cols) hlen]

theorem splitLines_hexDumpGo (cols byte_groups : Nat) (hcols : 1 ≤ cols)
    (S : List Nat) (offset : Nat) :
    splitLines (hexDumpGo cols byte_groups offset S) =
      dumpLines cols byte_groups offset (chunks cols S) :=
  splitLines_hexDumpGo_bounded cols byte_groups hcols S.length S le_rfl offset

theorem chunks_flatten_bounded (cols : Nat) (hcols : 1 ≤ cols) :
    ∀ (n : Nat) (S : List Nat), S.length ≤ n → (chunks cols S).flatten = S := by
  intro n
  induction n with
  | zero =>
      intro S hS
      have hnil : S = [] := List.eq_nil_of_length_eq_zero (by omega)
      subst hnil
      rw [chunks, dif_pos (Or.inr rfl)]
      rfl
  | succ n ih =>
      intro S hS
      by_cases hnil : S = []
      · subst hnil
        rw [chunks, dif_pos (Or.inr rfl)]
        rfl
      · have hcond : ¬ (cols = 0 ∨ S = []) := by
          push_neg
          exact ⟨by omega, hnil⟩
        rw [chunks, dif_neg hcond, List.flatten_cons]
        have hlen : (S.drop cols).length ≤ n := by
          have h1 : 0 < S.length := List.length_pos.mpr hnil
          simp only [List.length_drop]
          omega
        rw [ih (S.drop cols) hlen, List.take_append_drop]

theorem chunks_flatten (cols : Nat) (hcols : 1 ≤ cols) (S : List Nat) :
    (chunks cols S).flatten = S :=
  chunks_flatten_bounded cols hcols S.length S le_rfl

theorem chunks_mem_bounded (cols : Nat) :
    ∀ (n : Nat) (S : List Nat), S.length ≤ n →
      ∀ c ∈ chunks cols S, ∀ b ∈ c, b ∈ S := by
  intro n
  induction n with
  | zero =>
      intro S hS c hc
      have hnil : S = [] := List.eq_nil_of_length_eq_zero (by omega)
      subst hnil
      rw [chunks, dif_pos (Or.inr rfl)] at hc
      simp at hc
  | succ n ih =>
      intro S hS c hc b hb
      by_cases hcond : cols = 0 ∨ S = []
      · rw [chunks, dif_pos hcond] at hc
        simp at hc
      · rw [chunks, dif_neg hcond] at hc
        rcases List.mem_cons.mp hc with h | h
        · exact List.take_subset cols S (h ▸ hb)
        · have hnil : S ≠ [] := fun hn => hcond (Or.inr hn)
          have hlen : (S.drop cols).length ≤ n := by
            have h0 : ¬ cols = 0 := fun hz => hcond (Or.inl hz)
            have h1 : 0 < S.length := List.length_pos.mpr hnil
            simp only [List.length_drop]
            omega
          exact List.drop_subset cols S (ih (S.drop cols) hlen c h b hb)

theorem chunks_mem (cols : Nat) (S : List Nat) :
    ∀ c ∈ chunks cols S, ∀ b ∈ c, b ∈ S :=
  chunks_mem_bounded cols S.length S le_rfl

/-- Decoding the formatted lines of a chunk list recovers the
concatenation of the chunks. -/
theorem revLines_dumpLines (cols byte_groups : Nat) :
    ∀ (cs : List (List Nat)) (offset : Nat), (∀ c ∈ cs, ∀ b ∈ c, b < 256) →
      revLines (dumpLines cols byte_groups offset cs) = .ok cs.flatten := by
  intro cs
  induction cs with
  | nil => intro _ _; rfl
  | cons c rest ih =>
      intro offset hcs
      rw [dumpLines, revLines,
        decode_format_line c offset cols byte_groups (hcs c (by simp)),
        ih (offset + c.length) (fun x hx => hcs x (by simp [hx]))]
      rw [List.flatten_cons]

/-- The `k`-th emitted line, with its offset as the sum of the lengths of
the previous chunks. -/
theorem dumpLines_get (cols byte_groups : Nat) :
    ∀ (cs : List (List Nat)) (offset k : Nat) (hk : k < cs.length),
      (dumpLines cols byte_groups offset cs)[k]? =
        some (format_hex_dump_line (cs.get ⟨k, hk⟩)
          (offset + ((cs.take k).map List.length).sum) cols byte_groups ++ [0x0a]) := by
  intro cs
  induction cs with
  | nil => intro _ k hk; simp at hk
  | cons c rest ih =>
      intro offset k hk
      match k with
      | 0 =>
          rw [dumpLines]
          simp
      | k + 1 =>
          rw [dumpLines]
          have hk' : k < rest.length := by simpa using hk
          rw [List.getElem?_cons_succ, ih (offset + c.length) k hk']
          simp [Nat.add_assoc]

/-! ## Unreachability of the line-too-short check -/

theorem decodeHexPairs_ne_tooShort_bounded : ∀ (n : Nat) (l : List Nat),
    l.length ≤ n → decodeHexPairs l ≠ .err .lineTooShort := by
  intro n
  induction n with
  | zero =>
      intro l hl
      have hnil : l = [] := List.eq_nil_of_length_eq_zero (by omega)
      simp [hnil, decodeHexPairs]
  | succ n ih =>
      intro l hl
      match l with
      | [] => simp [decodeHexPairs]
      | [x] => simp [decodeHexPairs]
      | x :: y :: rest =>
          have hr : decodeHexPairs rest ≠ .err .lineTooShort :=
            ih rest (by simp at hl; omega)
          rw [decodeHexPairs]
          cases toDigit16 x with
          | none => simp
          | some a =>
              cases toDigit16 y with
              | none => simp
              | some b =>
                  cases hdp : decodeHexPairs rest with
                  | ok bs => simp
                  | err e =>
                      simp only []
                      intro hc
                      exact hr (by rw [hdp]; exact hc)
                  | panic => simp

theorem decodeHexPairs_ne_tooShort (l : List Nat) :
    decodeHexPairs l ≠ .err .lineTooShort :=
  decodeHexPairs_ne_tooShort_bounded l.length l le_rfl

/-- Whenever the panel-separator search succeeds, the computed hex-section
end lies strictly inside the line, so the source's `end > buffer.len()`
check can never fire. -/
theorem reverse_line_ne_tooShort (s : List Nat) :
    format_reverse_hex_dump_line s ≠ .err .lineTooShort := by
  cases hfc : findColonByteIdx s with
  | none => simp [format_reverse_hex_dump_line, hfc]
  | some ci =>
      cases hdb : dropBytes (ci + 2) s with
      | none => simp [format_reverse_hex_dump_line, hfc, hdb]
      | some tail =>
          cases hfs : findTwoSpacesByteIdx tail with
          | none => simp [format_reverse_hex_dump_line, hfc, hdb, hfs]
          | some found =>
              obtain ⟨pre, rest, htail, hpre⟩ := findTwoSpaces_some tail found hfs
              have hlen := dropBytes_some_len s (ci + 2) tail hdb
              have hin : ¬ (found + (ci + 2) > utf8Len s) := by
                subst htail
                rw [utf8Len_append, utf8Len_cons, utf8Len_cons,
                  utf8Width_ascii (by norm_num : (0x20 : Nat) < 0x80)] at hlen
                omega
              cases htb : takeBytes found tail with
              | none => simp [format_reverse_hex_dump_line, hfc, hdb, hfs, hin, htb]
              | some hex =>
                  simp only [format_reverse_hex_dump_line, hfc, hdb, hfs,
                    if_neg hin, htb]
                  exact decodeHexPairs_ne_tooShort _

/-! ## Width of the hex section -/

theorem hexBodyFrom_concat (byte_groups : Nat) :
    ∀ (xs : List Nat) (b : Nat) (i : Nat),
      hexBodyFrom byte_groups i (xs ++ [b]) =
        hexBodyFrom byte_groups i xs ++
          ((if (i + xs.length) ≠ 0 ∧ (i + xs.length) % byte_groups = 0 then [0x20] else []) ++
            byteHex b) := by
  intro xs
  induction xs with
  | nil =>
      intro b i
      simp [hexBodyFrom]
  | cons x xs ih =>
      intro b i
      rw [List.cons_append, hexBodyFrom, hexBodyFrom, ih b (i + 1)]
      simp only [List.append_assoc, List.length_cons]
      have harith : i + 1 + xs.length = i + (xs.length + 1) := by omega
      rw [harith]

theorem hexBody_length (byte_groups : Nat) (hbg : 1 ≤ byte_groups) :
    ∀ (c : List Nat), (∀ b ∈ c, b < 256) →
      (hexBody byte_groups c).length =
        2 * c.length + (c.length - 1) / byte_groups := by
  intro c
  induction c using List.reverseRecOn with
  | nil => intro _; simp [hexBody, hexBodyFrom]
  | append_singleton xs b ih =>
      intro hc
      have hb : b < 256 := hc b (by simp)
      have hxs := ih (fun x hx => hc x (by simp [hx]))
      rw [hexBody] at hxs ⊢
      rw [hexBodyFrom_concat byte_groups xs b 0]
      have hlen2 : (byteHex b).length = 2 := by rw [byteHex_eq hb]; rfl
      rw [List.length_append, List.length_append, hlen2, hxs]
      by_cases hx0 : xs.length = 0
      · have hxnil : xs = [] := List.eq_nil_of_length_eq_zero hx0
        subst hxnil
        rw [if_neg (by simp)]
        simp
      · obtain ⟨m, hm⟩ : ∃ m, xs.length = m + 1 := ⟨xs.length - 1, by omega⟩
        have hlapp : (xs ++ [b]).length = m + 1 + 1 := by simp [hm]
        rw [hlapp, hm]
        rw [show m + 1 + 1 - 1 = m + 1 from rfl, show m + 1 - 1 = m from rfl]
        simp only [Nat.zero_add]
        have hsd := Nat.succ_div m byte_groups
        have hdm : byte_groups ∣ m + 1 ↔ (m + 1) % byte_groups = 0 :=
          Nat.dvd_iff_mod_eq_zero
        by_cases hms : (m + 1) % byte_groups = 0
        · rw [if_pos (hdm.mpr hms)] at hsd
          rw [if_pos (show m + 1 ≠ 0 ∧ (m + 1) % byte_groups = 0 from ⟨by omega, hms⟩)]
          simp only [List.length_singleton]
          omega
        · rw [if_neg (fun hd => hms (hdm.mp hd))] at hsd
          rw [if_neg (show ¬ (m + 1 ≠ 0 ∧ (m + 1) % byte_groups = 0) from
            fun hcon => hms hcon.2)]
          simp only [List.length_nil]
          omega

/-- When `byte_groups` divides `cols`, the truncating padding formula
splits the full-line separator count exactly. -/
theorem div_pad_split {byte_groups cols r : Nat} (hbg : 1 ≤ byte_groups)
    (hdvd : byte_groups ∣ cols) (h1 : 1 ≤ r) (h2 : r ≤ cols) :
    (r - 1) / byte_groups + (cols - r) / byte_groups =
      (cols - 1) / byte_groups := by
  obtain ⟨m, hm⟩ := hdvd
  subst hm
  have hq := Nat.div_add_mod (r - 1) byte_groups
  have hs : (r - 1) % byte_groups < byte_groups := Nat.mod_lt _ (by omega)
  have hqm : (r - 1) / byte_groups + 1 ≤ m := by
    by_contra hq'
    have hge : m ≤ (r - 1) / byte_groups := by omega
    have hmul := Nat.mul_le_mul_left byte_groups hge
    omega
  obtain ⟨t, ht⟩ : ∃ t, m = (r - 1) / byte_groups + 1 + t :=
    ⟨m - ((r - 1) / byte_groups + 1), by omega⟩
  subst ht
  have hbm : byte_groups * ((r - 1) / byte_groups + 1 + t) =
      byte_groups * ((r - 1) / byte_groups) + byte_groups + byte_groups * t := by
    ring
  have hbm2 : byte_groups * ((r - 1) / byte_groups + t) =
      byte_groups * ((r - 1) / byte_groups) + byte_groups * t := by
    ring
  have hcr : byte_groups * ((r - 1) / byte_groups + 1 + t) - r =
      byte_groups * t + (byte_groups - 1 - (r - 1) % byte_groups) := by
    omega
  have hc1 : byte_groups * ((r - 1) / byte_groups + 1 + t) - 1 =
      byte_groups * ((r - 1) / byte_groups + t) + (byte_groups - 1) := by
    omega
  rw [hcr, hc1, Nat.mul_add_div (by omega), Nat.mul_add_div (by omega),
    Nat.div_eq_of_lt (show byte_groups - 1 - (r - 1) % byte_groups < byte_groups by omega),
    Nat.div_eq_of_lt (show byte_groups - 1 < byte_groups by omega)]
  omega

/-! ## The claims -/

/-- Claim C1: for every byte sequence `S` and every valid configuration
with `1 ≤ cols ≤ 256` and `1 ≤ byte_groups ≤ 256`, decoding the encoder's
output reproduces the input exactly:
`decode (encode S cols byte_groups) = S`. -/
theorem round_trip_ok (S : List Nat) (cols byte_groups : Nat)
    (h1 : 1 ≤ cols) (h2 : cols ≤ 256) (h3 : 1 ≤ byte_groups)
    (h4 : byte_groups ≤ 256) (hS : ∀ b ∈ S, b < 256) :
    reverse_hex_dump (hex_dump cols byte_groups S) = .ok S := by
  rw [reverse_hex_dump, hex_dump, splitLines_hexDumpGo cols byte_groups h1 S 0,
    revLines_dumpLines cols byte_groups (chunks cols S) 0
      (fun c hc b hb => hS b (chunks_mem cols S c hc b hb)),
    chunks_flatten cols h1 S]

/-- Witness for C1 at `S = "Hel"`, `cols = 4`, `byte_groups = 3`. -/
theorem round_trip_ok_witness :
    (1 ≤ 4 ∧ 4 ≤ 256 ∧ 1 ≤ 3 ∧ 3 ≤ 256 ∧ (∀ b ∈ [72, 101, 108], b < 256)) ∧
      reverse_hex_dump (hex_dump 4 3 [72, 101, 108]) = .ok [72, 101, 108] :=
  ⟨⟨by norm_num, by norm_num, by norm_num, by norm_num, by decide⟩,
    round_trip_ok [72, 101, 108] 4 3 (by norm_num) (by norm_num) (by norm_num)
      (by norm_num) (by decide)⟩

/-- Claim C2, counterexample: with the valid configuration `cols = 5`,
`byte_groups = 3` and a final chunk of length `r = 3`, the ASCII panel
does not begin at the same column as on a full 5-byte line, and the hex
section width (hex digits, group separators, source padding formula) of
the partial line differs from the hex-section width of a full line. -/
theorem panel_column_shift_counterexample :
    ((format_hex_dump_line [0, 0, 0] 5 5 3).length - 3 ≠
      (format_hex_dump_line [0, 0, 0, 0, 0] 0 5 3).length - 5) ∧
    (hexBody 3 [0, 0, 0]).length + ((5 - 3) * 2 + (5 - 3) / 3) ≠
      (hexBody 3 [0, 0, 0, 0, 0]).length := by
  constructor <;>
    simp [format_hex_dump_line, hexBody, hexBodyFrom, byteHex, hexPadLeft,
      toHexDigits, hexDigitChar, hexPad8, asciiPanelChar]

/-- Claim C2, amended: when `byte_groups` divides `cols`, the rendered
width of the hex section of a final chunk of length `1 ≤ r < cols`
(grouped hex digits plus the padding
`(cols - r) * 2 + (cols - r) / byte_groups`) equals the hex-section width
of a full `cols`-byte line, so the ASCII panel stays aligned; when
`byte_groups` does not divide `cols` the truncating division can lose one
separator space. -/
theorem hex_section_width_aligned (cols byte_groups : Nat) (c full : List Nat)
    (hbg : 1 ≤ byte_groups) (hdvd : byte_groups ∣ cols)
    (hc : ∀ b ∈ c, b < 256) (hfull : ∀ b ∈ full, b < 256)
    (h1 : 1 ≤ c.length) (h2 : c.length < cols) (hlen : full.length = cols) :
    (hexBody byte_groups c).length +
      ((cols - c.length) * 2 + (cols - c.length) / byte_groups) =
      (hexBody byte_groups full).length := by
  rw [hexBody_length byte_groups hbg c hc, hexBody_length byte_groups hbg full hfull,
    hlen]
  have hsplit := @div_pad_split byte_groups cols c.length hbg hdvd h1 (by omega)
  omega

/-- Witness for the amended C2 at `cols = 4`, `byte_groups = 2`,
`c = [1, 2]`, `full = [0, 0, 0, 0]`. -/
theorem hex_section_width_aligned_witness :
    (1 ≤ 2 ∧ 2 ∣ 4 ∧ (∀ b ∈ [1, 2], b < 256) ∧ (∀ b ∈ [0, 0, 0, 0], b < 256) ∧
      1 ≤ ([1, 2] : List Nat).length ∧ ([1, 2] : List Nat).length < 4 ∧
      ([0, 0, 0, 0] : List Nat).length = 4) ∧
      (hexBody 2 [1, 2]).length +
        ((4 - ([1, 2] : List Nat).length) * 2 +
          (4 - ([1, 2] : List Nat).length) / 2) =
        (hexBody 2 [0, 0, 0, 0]).length :=
  ⟨⟨by norm_num, by norm_num, by decide, by decide, by decide, by decide, by decide⟩,
    hex_section_width_aligned 4 2 [1, 2] [0, 0, 0, 0] (by norm_num) (by norm_num)
      (by decide) (by decide) (by decide) (by decide) (by decide)⟩

/-- Claim C3 is false of the code (code bug): `Config::parse_value`
accepts any value in `0..=256` — including `0` — although the `-g` flag's
own description says the value must be `> 0`, so `Config::build` given
`-g 0` resolves `byte_groups = 0` successfully instead of returning the
invalid-option-value error. -/
theorem build_accepts_zero_byte_groups :
    parse_value (some (strBytes "0")) = .ok 0 ∧
      buildOpts [strBytes "-g", strBytes "0"] = .ok 16 0 false :=
  ⟨rfl, by decide⟩

/-- Claim C4: the decoder fails with the stated error kind on each of the
four literal input lines (missing colon, missing double-space panel
separator, odd number of hex digits, invalid hex digit). -/
theorem decoder_error_cases :
    reverse_hex_dump (strBytes "00000000  48 65\n") = .err .missingColon ∧
    reverse_hex_dump (strBytes "00000000: 4865 6c6c\n") = .err .missingSep ∧
    reverse_hex_dump (strBytes "00000000: 4  \n") = .err .oddDigits ∧
    reverse_hex_dump (strBytes "00000000: 4g  \n") = .err .invalidHex :=
  ⟨by decide, by decide, by decide, by decide⟩

/-- Claim C5: encoding the 11-byte input `b"Hello world"` with `cols = 16`
and `byte_groups = 2` produces exactly the single line
`"00000000: 4865 6c6c 6f20 776f 726c 64              Hello world"`
followed by a newline (12 padding spaces, then the two-space separator). -/
theorem encode_hello_world_line :
    hex_dump 16 2 (strBytes "Hello world") =
      strBytes "00000000: 4865 6c6c 6f20 776f 726c 64              Hello world\n" := by
  simp [hex_dump, hexDumpGo, format_hex_dump_line, hexBody, hexBodyFrom, byteHex,
    hexPad8, hexPadLeft, toHexDigits, hexDigitChar, asciiPanelChar, strBytes]

/-- Claim C6: for every valid configuration, encoding the empty byte
sequence terminates with completely empty output — zero bytes and hence
zero lines. -/
theorem encode_empty_no_lines (cols byte_groups : Nat)
    (h1 : 1 ≤ cols) (h2 : cols ≤ 256) (h3 : 1 ≤ byte_groups)
    (h4 : byte_groups ≤ 256) :
    hex_dump cols byte_groups [] = [] ∧
      splitLines (hex_dump cols byte_groups []) = [] := by
  have h : hex_dump cols byte_groups [] = [] := by
    rw [hex_dump, hexDumpGo, dif_pos (Or.inr rfl)]
  exact ⟨h, by rw [h]; rfl⟩

/-- Witness for C6 at `cols = 16`, `byte_groups = 2`. -/
theorem encode_empty_no_lines_witness :
    (1 ≤ 16 ∧ 16 ≤ 256 ∧ 1 ≤ 2 ∧ 2 ≤ 256) ∧
      (hex_dump 16 2 [] = [] ∧ splitLines (hex_dump 16 2 []) = []) :=
  ⟨⟨by norm_num, by norm_num, by norm_num, by norm_num⟩,
    encode_empty_no_lines 16 2 (by norm_num) (by norm_num) (by norm_num) (by norm_num)⟩

/-- Claim C7: the `k`-th emitted line renders, as its offset, exactly the
sum of the chunk lengths of lines `0 .. k-1`, and that sum increases by
exactly the `k`-th chunk's length after the line is emitted. -/
theorem offset_cumulative (S : List Nat) (cols byte_groups k : Nat) (c : List Nat)
    (hcols : 1 ≤ cols) (hk : (chunks cols S)[k]? = some c) :
    (splitLines (hex_dump cols byte_groups S))[k]? =
      some (format_hex_dump_line c ((((chunks cols S).take k).map List.length).sum)
        cols byte_groups ++ [0x0a]) ∧
    (((chunks cols S).take (k + 1)).map List.length).sum =
      (((chunks cols S).take k).map List.length).sum + c.length := by
  have hklen : k < (chunks cols S).length := by
    by_contra hge
    rw [List.getElem?_eq_none (by omega)] at hk
    exact Option.noConfusion hk
  have hcg : (chunks cols S).get ⟨k, hklen⟩ = c := by
    have hge := List.getElem?_eq_getElem hklen
    rw [hge] at hk
    simpa using hk
  constructor
  · rw [hex_dump, splitLines_hexDumpGo cols byte_groups hcols S 0,
      dumpLines_get cols byte_groups (chunks cols S) 0 k hklen]
    have hcg' : (chunks cols S)[k] = c := by
      rw [← hcg]
      simp
    simp [hcg']
  · rw [List.take_succ, hk]
    simp

/-- Witness for C7 at `S = [1, 2, 3]`, `cols = 2`, `byte_groups = 1`,
`k = 1` (second line, chunk `[3]`, offset `2`). -/
theorem offset_cumulative_witness :
    (1 ≤ 2 ∧ (chunks 2 [1, 2, 3])[1]? = some [3]) ∧
      ((splitLines (hex_dump 2 1 [1, 2, 3]))[1]? =
        some (format_hex_dump_line [3]
          ((((chunks 2 [1, 2, 3]).take 1).map List.length).sum) 2 1 ++ [0x0a]) ∧
       (((chunks 2 [1, 2, 3]).take 2).map List.length).sum =
        (((chunks 2 [1, 2, 3]).take 1).map List.length).sum +
          ([3] : List Nat).length) :=
  ⟨⟨by norm_num, by simp [chunks]⟩,
    offset_cumulative [1, 2, 3] 2 1 1 [3] (by norm_num) (by simp [chunks])⟩

/-- Claim C8, counterexample: there is no input line at all on which the
per-line decoder returns the line-too-short error — the
`end > buffer.len()` check is dead code. -/
theorem no_line_too_short_error :
    ¬ ∃ s : List Nat, format_reverse_hex_dump_line s = .err .lineTooShort := by
  rintro ⟨s, hs⟩
  exact reverse_line_ne_tooShort s hs

/-- Claim C8, amended: the decoder's error taxonomy contains a
line-too-short case, but it is unreachable: whenever the panel-separator
search succeeds the computed hex-section boundary is within the line, so
no input yields this error; a line whose separator is missing (such as
`"00000000: 48\n"`) fails with the missing-panel-separator error
instead. -/
theorem line_too_short_check_dead :
    (∀ s : List Nat, format_reverse_hex_dump_line s ≠ .err .lineTooShort) ∧
      reverse_hex_dump (strBytes "00000000: 48\n") = .err .missingSep :=
  ⟨reverse_line_ne_tooShort, by decide⟩

/-- Claim C9 is false of the code (code bug): the per-line decoder is not
total. On the line `":"` the slice `&buffer[colon_idx + 2 ..]` starts past
the end of the string and panics, and on the line `":é"` the slice start
falls inside the two-byte UTF-8 encoding of `'é'` and panics, instead of
returning `Ok` or a malformed-line error. -/
theorem decode_line_panics_on_short_line :
    format_reverse_hex_dump_line (strBytes ":") = .panic ∧
      format_reverse_hex_dump_line (strBytes ":é") = .panic :=
  ⟨by decide, by decide⟩

/-- Claim C10: with `cols = 0` the read buffer is zero-sized, the first
read returns 0 bytes and is taken as end-of-stream, so the encoder
terminates at once and writes nothing, for every input stream. -/
theorem hex_dump_zero_cols_empty (byte_groups : Nat) (input : List Nat) :
    hex_dump 0 byte_groups input = [] := by
  rw [hex_dump, hexDumpGo, dif_pos (Or.inl rfl)]

end Hxx
